import Mathlib

/-!
Shallow embedding of `src/main.c` of the statsproject repository (a dice-roll
statistics toolkit), together with proofs of the specified properties of its
core components: the combinatorics engine `count_sum_combinations_recursive`,
the theoretical distribution builder `calculate_theoretical_counts`, the
simulation engine `run_simulation`, and the chi-squared goodness-of-fit
evaluator `perform_chi_squared_test`.

C `long long` counts are modelled as unbounded `Int` (the spec leaves the
overflowing regime unprescribed), C `double` arithmetic is modelled as exact
rational arithmetic `ℚ`, and the C arrays indexed by sum are modelled as total
functions `Int → _` that are zero outside the populated range (matching the
`calloc` initialisation in `main`).
-/

/-- Shallow embedding of `count_sum_combinations_recursive` (src/main.c:76-89).
Mirrors the C control flow: first the pruning test
`target_sum < dice_remaining || target_sum > dice_remaining * num_sides`,
then the `dice_remaining == 0` base case, then the loop `for i = 1..num_sides`
accumulating the recursive counts (here: summing the mapped list in the same
order). -/
def count_sum_combinations_recursive (dice_remaining : Nat) (target_sum : Int)
    (num_sides : Nat) : Int :=
  if target_sum < (dice_remaining : Int) ∨
      target_sum > (dice_remaining : Int) * (num_sides : Int) then 0
  else
    match dice_remaining with
    | 0 => if target_sum = 0 then 1 else 0
    | Nat.succ n =>
      ((List.range num_sides).map
        (fun i : Nat => count_sum_combinations_recursive n (target_sum - ((i : Int) + 1))
          num_sides)).sum

/-- The list `[1, 2, ..., num_sides]` of face values of one die, as integers. -/
def faceValues (num_sides : Nat) : List Int :=
  (List.range num_sides).map (fun i : Nat => (i : Int) + 1)

/-- Specification-level enumeration: all tuples (modelled as lists) of
`dice_count` face values, each in `[1, num_sides]`. -/
def allTuples (num_sides : Nat) : Nat → List (List Int)
  | 0 => [[]]
  | n + 1 =>
    (faceValues num_sides).flatMap
      (fun v => (allTuples num_sides n).map (fun l => v :: l))

/-- Specification-level count: the number of tuples of `dice_count` face
values, each in `[1, num_sides]`, whose sum is `target_sum`. -/
def numTuples (dice_count : Nat) (target_sum : Int) (num_sides : Nat) : Nat :=
  ((allTuples num_sides dice_count).filter
    (fun l => decide (l.sum = target_sum))).length

/-! ### Unfolding equations for the combinatorics engine -/

/-- Unfolding of the engine at `dice_remaining = 0`: the two base cases of
the C function collapse to `1` exactly when `target_sum = 0`. -/
lemma count_zero (t : Int) (s : Nat) :
    count_sum_combinations_recursive 0 t s = if t = 0 then 1 else 0 := by
  show (if t < ((0 : Nat) : Int) ∨ t > ((0 : Nat) : Int) * (s : Int) then 0
      else if t = 0 then 1 else 0) = _
  split_ifs <;> omega

/-- Unfolding of the engine at `dice_remaining = n + 1`. -/
lemma count_succ (n : Nat) (t : Int) (s : Nat) :
    count_sum_combinations_recursive (n + 1) t s =
      if t < ((n + 1 : Nat) : Int) ∨ t > ((n + 1 : Nat) : Int) * (s : Int) then 0
      else ((List.range s).map
        (fun i : Nat => count_sum_combinations_recursive n (t - ((i : Int) + 1)) s)).sum :=
  rfl

/-- The pruning rule: an out-of-range target yields a zero count. -/
lemma count_prune {d : Nat} {t : Int} {s : Nat}
    (h : t < (d : Int) ∨ t > (d : Int) * (s : Int)) :
    count_sum_combinations_recursive d t s = 0 := by
  cases d with
  | zero =>
    rw [count_zero, if_neg]
    simp only [Nat.cast_zero, zero_mul] at h
    omega
  | succ n => rw [count_succ, if_pos h]

/-! ### The tuple enumeration: membership, freshness, length, sum bounds -/

/-- A value is a face value exactly when it lies in `[1, num_sides]`. -/
lemma mem_faceValues {num_sides : Nat} {v : Int} :
    v ∈ faceValues num_sides ↔ 1 ≤ v ∧ v ≤ (num_sides : Int) := by
  simp only [faceValues, List.mem_map]
  constructor
  · rintro ⟨i, hi, rfl⟩
    have := List.mem_range.mp hi
    omega
  · rintro ⟨h1, h2⟩
    exact ⟨(v - 1).toNat, List.mem_range.mpr (by omega), by omega⟩

/-- The face-value list has no duplicates. -/
lemma nodup_faceValues (num_sides : Nat) : (faceValues num_sides).Nodup := by
  rw [faceValues]
  exact List.Nodup.map (fun a b hab => by omega) (List.nodup_range num_sides)

/-- Membership characterisation of the tuple enumeration: the enumerated
tuples are exactly the lists of `d` face values, each in `[1, num_sides]`. -/
lemma mem_allTuples {num_sides : Nat} : ∀ {d : Nat} {l : List Int},
    l ∈ allTuples num_sides d ↔
      l.length = d ∧ ∀ x ∈ l, 1 ≤ x ∧ x ≤ (num_sides : Int) := by
  intro d
  induction d with
  | zero =>
    intro l
    simp only [allTuples, List.mem_singleton]
    constructor
    · rintro rfl; simp
    · rintro ⟨hlen, -⟩; exact List.length_eq_zero.mp hlen
  | succ n ih =>
    intro l
    simp only [allTuples, List.mem_flatMap, List.mem_map]
    constructor
    · rintro ⟨v, hv, l', hl', rfl⟩
      rw [mem_faceValues] at hv
      obtain ⟨hlen, hall⟩ := ih.mp hl'
      refine ⟨by simp [hlen], ?_⟩
      intro x hx
      rcases List.mem_cons.mp hx with rfl | hx
      · exact hv
      · exact hall x hx
    · rintro ⟨hlen, hall⟩
      cases l with
      | nil => simp at hlen
      | cons a l' =>
        refine ⟨a, mem_faceValues.mpr (hall a (List.mem_cons_self a l')), l', ?_, rfl⟩
        exact ih.mpr ⟨by simpa using hlen, fun x hx => hall x (List.mem_cons_of_mem a hx)⟩

/-- The tuple enumeration lists each tuple exactly once. -/
lemma nodup_allTuples (num_sides : Nat) : ∀ d : Nat, (allTuples num_sides d).Nodup := by
  intro d
  induction d with
  | zero => simp [allTuples]
  | succ n ih =>
    rw [allTuples, List.nodup_flatMap]
    refine ⟨fun v _ => List.Nodup.map (fun a b hab => by injection hab) ih, ?_⟩
    refine List.Pairwise.imp_of_mem ?_ (nodup_faceValues num_sides)
    intro v w _ _ hvw
    intro x hxv hxw
    obtain ⟨lv, -, rfl⟩ := List.mem_map.mp hxv
    obtain ⟨lw, -, hw⟩ := List.mem_map.mp hxw
    exact hvw (by injection hw with h1 h2; exact h1.symm)

/-- There are `num_sides ^ d` tuples of `d` face values. -/
lemma length_allTuples (num_sides : Nat) :
    ∀ d : Nat, (allTuples num_sides d).length = num_sides ^ d := by
  intro d
  induction d with
  | zero => simp [allTuples]
  | succ n ih =>
    rw [allTuples, List.length_flatMap]
    simp only [Function.comp_def, List.length_map]
    rw [ih, List.map_const', List.sum_replicate, smul_eq_mul, faceValues,
      List.length_map, List.length_range, pow_succ, Nat.mul_comm]

/-- A list of values each in `[1, num_sides]` has its sum between its length
and its length times `num_sides`. -/
lemma list_sum_bounds {num_sides : Nat} : ∀ {l : List Int},
    (∀ x ∈ l, 1 ≤ x ∧ x ≤ (num_sides : Int)) →
      (l.length : Int) ≤ l.sum ∧ l.sum ≤ (l.length : Int) * num_sides := by
  intro l
  induction l with
  | nil => intro _; simp
  | cons a l ih =>
    intro h
    have ha := h a (List.mem_cons_self a l)
    obtain ⟨h1, h2⟩ := ih (fun x hx => h x (List.mem_cons_of_mem a hx))
    simp only [List.sum_cons, List.length_cons]
    constructor
    · push_cast
      omega
    · push_cast
      rw [add_mul, one_mul]
      have := ha.2
      linarith

/-! ### Counting tuples by their sum -/

/-- Only the empty tuple has zero dice, and its sum is `0`. -/
lemma numTuples_zero (t : Int) (s : Nat) :
    numTuples 0 t s = if t = 0 then 1 else 0 := by
  rcases eq_or_ne t 0 with rfl | h
  · rfl
  · rw [if_neg h, numTuples, allTuples, List.filter_cons]
    simp [Ne.symm h]

/-- No tuple of `d` face values has a sum outside `[d, d * s]`. -/
lemma numTuples_eq_zero_of_out_of_range {d : Nat} {t : Int} {s : Nat}
    (h : t < (d : Int) ∨ t > (d : Int) * (s : Int)) : numTuples d t s = 0 := by
  rw [numTuples, List.length_eq_zero, List.filter_eq_nil_iff]
  intro l hl
  obtain ⟨hlen, hall⟩ := mem_allTuples.mp hl
  obtain ⟨h1, h2⟩ := list_sum_bounds hall
  rw [hlen] at h1 h2
  simp only [decide_eq_true_eq]
  intro he
  rcases h with h | h
  · omega
  · linarith

/-- Filtering a flat map counts group by group. -/
lemma length_filter_flatMap {α β : Type} (l : List α) (f : α → List β) (p : β → Bool) :
    ((l.flatMap f).filter p).length = (l.map (fun a => ((f a).filter p).length)).sum := by
  induction l with
  | nil => simp
  | cons a l ih => simp [List.flatMap_cons, List.filter_append, ih]

/-- Counting tuples of `n + 1` face values splits by the first face value. -/
lemma numTuples_succ (n : Nat) (t : Int) (s : Nat) :
    numTuples (n + 1) t s =
      ((List.range s).map (fun i : Nat => numTuples n (t - ((i : Int) + 1)) s)).sum := by
  rw [numTuples, allTuples, length_filter_flatMap, faceValues, List.map_map]
  refine congrArg List.sum (List.map_congr_left ?_)
  intro i _
  simp only [Function.comp_apply]
  rw [List.filter_map, List.length_map, numTuples]
  congr 1
  apply List.filter_congr
  intro l _
  simp only [Function.comp_apply, List.sum_cons]
  refine decide_eq_decide.mpr ⟨fun h => by omega, fun h => by omega⟩

/-- Functional correctness of the combinatorics engine: it returns exactly
the number of tuples of `d` face values in `[1, s]` summing to `t`. -/
lemma count_eq_numTuples : ∀ (d : Nat) (t : Int) (s : Nat),
    count_sum_combinations_recursive d t s = (numTuples d t s : Int) := by
  intro d
  induction d with
  | zero =>
    intro t s
    rw [count_zero, numTuples_zero]
    split_ifs <;> simp
  | succ n ih =>
    intro t s
    rw [count_succ]
    split_ifs with h
    · rw [numTuples_eq_zero_of_out_of_range h]
      simp
    · rw [numTuples_succ, Nat.cast_list_sum, List.map_map]
      refine congrArg List.sum (List.map_congr_left ?_)
      intro i _
      simp only [Function.comp_apply]
      exact ih (t - ((i : Int) + 1)) s

/-- Summming the per-target filter counts over a range containing every value
of `Q` recovers the length of the list. -/
lemma sum_length_filter {α : Type} (Q : α → Int) (T : Finset Int) :
    ∀ l : List α, (∀ x ∈ l, Q x ∈ T) →
      (∑ t ∈ T, (l.filter (fun x => decide (Q x = t))).length) = l.length := by
  intro l
  induction l with
  | nil => intro _; simp
  | cons a l ih =>
    intro h
    have hstep : ∀ t : Int, ((a :: l).filter (fun x => decide (Q x = t))).length =
        (if Q a = t then 1 else 0) + (l.filter (fun x => decide (Q x = t))).length := by
      intro t
      rw [List.filter_cons]
      by_cases hq : Q a = t
      · simp [hq, Nat.add_comm]
      · simp [hq]
    simp only [hstep]
    rw [Finset.sum_add_distrib, ih (fun x hx => h x (List.mem_cons_of_mem a hx)),
      Finset.sum_ite_eq T (Q a) (fun _ => 1),
      if_pos (h a (List.mem_cons_self a l))]
    simp [Nat.add_comm]

/-- The per-sum tuple counts over the whole attainable range `[d, d * s]`
add up to the total number `s ^ d` of tuples. -/
lemma sum_numTuples (d s : Nat) :
    ∑ t ∈ Finset.Icc (d : Int) ((d : Int) * (s : Int)), numTuples d t s = s ^ d := by
  rw [← length_allTuples s d]
  simp only [numTuples]
  apply sum_length_filter
  intro l hl
  obtain ⟨hlen, hall⟩ := mem_allTuples.mp hl
  obtain ⟨h1, h2⟩ := list_sum_bounds hall
  rw [hlen] at h1 h2
  exact Finset.mem_Icc.mpr ⟨h1, h2⟩

/-- A sum of a mapped range list is a `Finset.range` sum. -/
lemma list_range_map_sum {M : Type} [AddCommMonoid M] (n : Nat) (f : Nat → M) :
    ((List.range n).map f).sum = ∑ i ∈ Finset.range n, f i := by
  induction n with
  | zero => simp
  | succ m ih =>
    rw [List.range_succ, List.map_append, List.sum_append, Finset.sum_range_succ, ih]
    simp

/-! ### Reflection symmetry of the sum distribution -/

/-- Replacing the target `t` by its reflection `d * (s + 1) - t` leaves the
count unchanged (each die value `v` pairs with `s + 1 - v`). -/
lemma count_reflection : ∀ (d : Nat) (t : Int) (s : Nat),
    count_sum_combinations_recursive d t s =
      count_sum_combinations_recursive d ((d : Int) * ((s : Int) + 1) - t) s := by
  intro d
  induction d with
  | zero =>
    intro t s
    rw [count_zero, count_zero]
    simp only [Nat.cast_zero, zero_mul, zero_sub, neg_eq_zero]
  | succ n ih =>
    intro t s
    rw [count_succ, count_succ]
    have hsymm : (((n + 1 : Nat) : Int) * ((s : Int) + 1) - t < ((n + 1 : Nat) : Int) ∨
        ((n + 1 : Nat) : Int) * ((s : Int) + 1) - t > ((n + 1 : Nat) : Int) * (s : Int)) ↔
        (t < ((n + 1 : Nat) : Int) ∨ t > ((n + 1 : Nat) : Int) * (s : Int)) := by
      have hN : ((n + 1 : Nat) : Int) * ((s : Int) + 1) =
          ((n + 1 : Nat) : Int) * (s : Int) + ((n + 1 : Nat) : Int) := by ring
      rw [hN]
      generalize ((n + 1 : Nat) : Int) * (s : Int) = A
      omega
    by_cases h : t < ((n + 1 : Nat) : Int) ∨ t > ((n + 1 : Nat) : Int) * (s : Int)
    · rw [if_pos h, if_pos (hsymm.mpr h)]
    · rw [if_neg h, if_neg (fun hc => h (hsymm.mp hc))]
      rw [list_range_map_sum, list_range_map_sum]
      rw [← Finset.sum_range_reflect
        (fun i : Nat => count_sum_combinations_recursive n (t - ((i : Int) + 1)) s) s]
      apply Finset.sum_congr rfl
      intro i hi
      have hi' : i < s := Finset.mem_range.mp hi
      rw [ih (t - (((s - 1 - i : Nat) : Int) + 1)) s]
      congr 1
      have h2 : ((n + 1 : Nat) : Int) * ((s : Int) + 1) =
          (n : Int) * ((s : Int) + 1) + ((s : Int) + 1) := by push_cast; ring
      rw [h2]
      generalize (n : Int) * ((s : Int) + 1) = B
      omega

/-! ### Embedding of `calculate_theoretical_counts` (src/main.c:94-104)

The C function fills `expected_counts[sum]` for `sum` in `[min_sum, max_sum]`
with `(ways_to_make_sum / total_possible_outcomes) * num_trials`, all other
array slots staying at their `calloc` value `0`; the `double` arithmetic is
modelled exactly in `ℚ`. -/

def calculate_theoretical_counts (num_dice num_sides : Nat) (num_trials : Int) :
    Int → ℚ :=
  fun s =>
    if (num_dice : Int) ≤ s ∧ s ≤ (num_dice : Int) * (num_sides : Int) then
      ((count_sum_combinations_recursive num_dice s num_sides : ℚ) /
        ((num_sides : ℚ) ^ num_dice)) * (num_trials : ℚ)
    else 0

/-! ### Embedding of `perform_chi_squared_test` (src/main.c:123-132)

The C loop accumulates `difference * difference / expected_counts[sum]` over
`sum` in `[min_sum, max_sum]`, skipping sums with `expected_counts[sum] <= 0`;
the accumulation order is irrelevant in exact arithmetic, so it is a
`Finset.Icc` sum. -/

def perform_chi_squared_test (observed_counts : Int → Int) (expected_counts : Int → ℚ)
    (min_sum max_sum : Int) : ℚ :=
  ∑ s ∈ Finset.Icc min_sum max_sum,
    if expected_counts s > 0 then
      ((observed_counts s : ℚ) - expected_counts s) *
        ((observed_counts s : ℚ) - expected_counts s) / expected_counts s
    else 0

/-! ### Embedding of `run_simulation` (src/main.c:109-117)

The C `rand()` stream is modelled by an arbitrary function `rng : Nat → Nat`
giving the successive raw generator outputs; trial `i` consumes the values at
positions `i * num_dice, ..., i * num_dice + num_dice - 1`, each reduced
`% num_sides` and shifted by `+ 1` exactly as in the C line
`current_sum += (rand() % num_sides) + 1`. -/

/-- The sum rolled in one trial whose first draw is at stream position `base`. -/
def roll_trial (num_dice num_sides : Nat) (rng : Nat → Nat) (base : Nat) : Int :=
  ∑ j ∈ Finset.range num_dice, ((rng (base + j) % num_sides + 1 : Nat) : Int)

/-- The array update `observed_counts[current_sum]++`. -/
def record_roll (observed_counts : Int → Int) (current_sum : Int) : Int → Int :=
  fun s => if s = current_sum then observed_counts s + 1 else observed_counts s

/-- The trial loop of `run_simulation`, with `i` the index of the next trial
and `num_trials` the number of trials still to run. -/
def run_simulation_from (num_dice num_sides : Nat) (rng : Nat → Nat) :
    Nat → Nat → (Int → Int) → (Int → Int)
  | _, 0, observed_counts => observed_counts
  | i, Nat.succ k, observed_counts =>
    run_simulation_from num_dice num_sides rng (i + 1) k
      (record_roll observed_counts (roll_trial num_dice num_sides rng (i * num_dice)))

/-- Shallow embedding of `run_simulation`: run `num_trials` trials starting
from the given observed-count array. -/
def run_simulation (num_dice num_sides num_trials : Nat) (rng : Nat → Nat)
    (observed_counts : Int → Int) : Int → Int :=
  run_simulation_from num_dice num_sides rng 0 num_trials observed_counts

/-- Every trial sum lies in the attainable range `[num_dice, num_dice * num_sides]`. -/
lemma roll_trial_mem_Icc (num_dice num_sides : Nat) (hs : 1 ≤ num_sides)
    (rng : Nat → Nat) (base : Nat) :
    roll_trial num_dice num_sides rng base ∈
      Finset.Icc (num_dice : Int) ((num_dice : Int) * (num_sides : Int)) := by
  rw [Finset.mem_Icc, roll_trial]
  constructor
  · calc (num_dice : Int) = ∑ _j ∈ Finset.range num_dice, (1 : Int) := by simp
      _ ≤ _ := Finset.sum_le_sum (fun j _ => by push_cast; omega)
  · calc (∑ j ∈ Finset.range num_dice, ((rng (base + j) % num_sides + 1 : Nat) : Int))
        ≤ ∑ _j ∈ Finset.range num_dice, (num_sides : Int) :=
          Finset.sum_le_sum (fun j _ => by
            have := Nat.mod_lt (rng (base + j)) (show 0 < num_sides by omega)
            push_cast
            omega)
      _ = (num_dice : Int) * num_sides := by
          rw [Finset.sum_const, Finset.card_range, nsmul_eq_mul]

/-- Recording one roll at an in-range sum raises the range total by one. -/
lemma sum_record_roll (S : Finset Int) (observed_counts : Int → Int) (c : Int)
    (hc : c ∈ S) :
    ∑ s ∈ S, record_roll observed_counts c s = (∑ s ∈ S, observed_counts s) + 1 := by
  have hfun : ∀ s, record_roll observed_counts c s =
      observed_counts s + (if s = c then 1 else 0) := by
    intro s
    simp only [record_roll]
    split_ifs <;> simp
  simp only [hfun]
  rw [Finset.sum_add_distrib, Finset.sum_ite_eq' S c (fun _ => 1), if_pos hc]

/-- The trial loop adds exactly one in-range count per remaining trial. -/
lemma run_simulation_from_sum (num_dice num_sides : Nat) (rng : Nat → Nat)
    (S : Finset Int)
    (h : ∀ base, roll_trial num_dice num_sides rng base ∈ S) :
    ∀ (num_trials i : Nat) (observed_counts : Int → Int),
      ∑ s ∈ S, run_simulation_from num_dice num_sides rng i num_trials observed_counts s =
        (∑ s ∈ S, observed_counts s) + (num_trials : Int) := by
  intro k
  induction k with
  | zero =>
    intro i observed_counts
    simp [run_simulation_from]
  | succ m ih =>
    intro i observed_counts
    simp only [run_simulation_from]
    rw [ih, sum_record_roll S observed_counts _ (h (i * num_dice))]
    push_cast
    ring

/-- The trial loop never changes an entry outside the attainable range. -/
lemma run_simulation_from_outside (num_dice num_sides : Nat) (rng : Nat → Nat)
    (S : Finset Int)
    (h : ∀ base, roll_trial num_dice num_sides rng base ∈ S) :
    ∀ (num_trials i : Nat) (observed_counts : Int → Int) (x : Int), x ∉ S →
      run_simulation_from num_dice num_sides rng i num_trials observed_counts x =
        observed_counts x := by
  intro k
  induction k with
  | zero =>
    intro i observed_counts x _
    simp [run_simulation_from]
  | succ m ih =>
    intro i observed_counts x hx
    simp only [run_simulation_from]
    rw [ih _ _ x hx]
    have hne : x ≠ roll_trial num_dice num_sides rng (i * num_dice) := by
      intro he
      rw [he] at hx
      exact hx (h (i * num_dice))
    simp only [record_roll]
    rw [if_neg hne]

/-! ### Fuel-bounded variant of the combinatorics engine

`count_sum_combinations_fuel fuel d t s` runs the same algorithm but refuses
to descend more than `fuel` call levels, returning `none` when the budget is
exhausted; it witnesses that the recursion depth of the engine is bounded by
the initial `dice_remaining`. -/

def count_sum_combinations_fuel : Nat → Nat → Int → Nat → Option Int
  | 0, _, _, _ => none
  | fuel + 1, dice_remaining, target_sum, num_sides =>
    if target_sum < (dice_remaining : Int) ∨
        target_sum > (dice_remaining : Int) * (num_sides : Int) then some 0
    else
      match dice_remaining with
      | 0 => some (if target_sum = 0 then 1 else 0)
      | Nat.succ n =>
        (List.range num_sides).foldr
          (fun (i : Nat) (acc : Option Int) =>
            match count_sum_combinations_fuel fuel n (target_sum - ((i : Int) + 1))
                num_sides, acc with
            | some c, some a => some (c + a)
            | _, _ => none)
          (some 0)

/-- With any fuel exceeding `dice_remaining` the fuel-bounded engine succeeds
and agrees with the recursive one: the recursion depth is at most the initial
`dice_remaining`. -/
lemma count_fuel_spec : ∀ (d fuel : Nat), d < fuel → ∀ (t : Int) (s : Nat),
    count_sum_combinations_fuel fuel d t s =
      some (count_sum_combinations_recursive d t s) := by
  intro d
  induction d with
  | zero =>
    intro fuel hf t s
    obtain ⟨f, rfl⟩ : ∃ f, fuel = f + 1 := ⟨fuel - 1, by omega⟩
    simp only [count_sum_combinations_fuel]
    rw [count_zero]
    by_cases h : t < ((0 : Nat) : Int) ∨ t > ((0 : Nat) : Int) * (s : Int)
    · rw [if_pos h]
      have ht : t ≠ 0 := by
        simp only [Nat.cast_zero, zero_mul] at h
        omega
      rw [if_neg ht]
    · rw [if_neg h]
  | succ n ih =>
    intro fuel hf t s
    obtain ⟨f, rfl⟩ : ∃ f, fuel = f + 1 := ⟨fuel - 1, by omega⟩
    have hn : n < f := by omega
    simp only [count_sum_combinations_fuel]
    rw [count_succ]
    by_cases h : t < ((n + 1 : Nat) : Int) ∨ t > ((n + 1 : Nat) : Int) * (s : Int)
    · rw [if_pos h, if_pos h]
    · rw [if_neg h, if_neg h]
      have key : ∀ l : List Nat,
          List.foldr (fun (i : Nat) (acc : Option Int) =>
            match count_sum_combinations_fuel f n (t - ((i : Int) + 1)) s, acc with
            | some c, some a => some (c + a)
            | _, _ => none) (some 0) l =
          some ((l.map (fun i : Nat =>
            count_sum_combinations_recursive n (t - ((i : Int) + 1)) s)).sum) := by
        intro l
        induction l with
        | nil => rfl
        | cons a l ihl =>
          rw [List.foldr_cons, ihl, ih f hn (t - ((a : Int) + 1)) s]
          rfl
      exact key (List.range s)

/-! ## The claims -/

/-- Claim C1: for every `dice_remaining ≥ 0`, `num_sides ≥ 2` and integer
`target_sum` (possibly negative), `count_sum_combinations_recursive` returns
exactly the number of tuples of `dice_remaining` face values, each in
`[1, num_sides]`, whose sum equals `target_sum`. -/
theorem count_sum_combinations_correct (dice_remaining : Nat) (target_sum : Int)
    (num_sides : Nat) (_hs : 2 ≤ num_sides) :
    count_sum_combinations_recursive dice_remaining target_sum num_sides =
      (numTuples dice_remaining target_sum num_sides : Int) :=
  count_eq_numTuples dice_remaining target_sum num_sides

/-- Concrete instance of claim C1 at `dice_remaining = 2`, `target_sum = 7`,
`num_sides = 6`. -/
theorem count_sum_combinations_correct_witness :
    2 ≤ 6 ∧ count_sum_combinations_recursive 2 7 6 = (numTuples 2 7 6 : Int) :=
  ⟨by decide, count_sum_combinations_correct 2 7 6 (by decide)⟩

/-- Claim C2: the engine returns `0` whenever `target_sum < dice_remaining` or
`target_sum > dice_remaining * num_sides`, and at `dice_remaining = 0` it
returns `1` exactly when `target_sum = 0`. -/
theorem count_base_cases (dice_remaining : Nat) (target_sum : Int) (num_sides : Nat)
    (_hs : 2 ≤ num_sides) :
    ((target_sum < (dice_remaining : Int) ∨
        target_sum > (dice_remaining : Int) * (num_sides : Int)) →
      count_sum_combinations_recursive dice_remaining target_sum num_sides = 0) ∧
    (count_sum_combinations_recursive 0 target_sum num_sides =
      if target_sum = 0 then 1 else 0) :=
  ⟨fun h => count_prune h, count_zero target_sum num_sides⟩

/-- Concrete instance of claim C2 at `dice_remaining = 2`, `target_sum = 1`,
`num_sides = 6`: the hypothesis holds, the pruning antecedent `1 < 2` holds,
so the count is `0`, and the zero-dice base case evaluates as claimed. -/
theorem count_base_cases_witness :
    2 ≤ 6 ∧
    ((1 : Int) < ((2 : Nat) : Int) ∨
      (1 : Int) > ((2 : Nat) : Int) * ((6 : Nat) : Int)) ∧
    count_sum_combinations_recursive 2 1 6 = 0 ∧
    (count_sum_combinations_recursive 0 1 6 = if (1 : Int) = 0 then 1 else 0) :=
  ⟨by decide, by decide, (count_base_cases 2 1 6 (by decide)).1 (by decide),
    (count_base_cases 2 1 6 (by decide)).2⟩

/-- Claim C3: the chi-squared statistic is exactly the sum, over the sums `s`
in `[min_sum, max_sum]` with `expected_counts s > 0`, of
`(observed − expected)² / expected`; sums with non-positive expected counts
contribute nothing. -/
theorem perform_chi_squared_test_filtered (observed_counts : Int → Int)
    (expected_counts : Int → ℚ) (min_sum max_sum : Int) :
    perform_chi_squared_test observed_counts expected_counts min_sum max_sum =
      ∑ s ∈ (Finset.Icc min_sum max_sum).filter (fun s => expected_counts s > 0),
        ((observed_counts s : ℚ) - expected_counts s) *
          ((observed_counts s : ℚ) - expected_counts s) / expected_counts s := by
  rw [perform_chi_squared_test, Finset.sum_filter]

/-- Claim C4: in exact rational arithmetic the expected counts of a valid
config sum to exactly `num_trials` over the whole range
`[num_dice, num_dice * num_sides]`. -/
theorem calculate_theoretical_counts_total (num_dice num_sides : Nat) (num_trials : Int)
    (_hd1 : 1 ≤ num_dice) (_hd2 : num_dice ≤ 10) (hs1 : 2 ≤ num_sides)
    (hs2 : num_sides ≤ 100) (_ht : 1 ≤ num_trials) :
    ∑ s ∈ Finset.Icc (num_dice : Int) ((num_dice : Int) * (num_sides : Int)),
      calculate_theoretical_counts num_dice num_sides num_trials s =
        (num_trials : ℚ) := by
  have hstep : ∀ s ∈ Finset.Icc (num_dice : Int) ((num_dice : Int) * (num_sides : Int)),
      calculate_theoretical_counts num_dice num_sides num_trials s =
        ((numTuples num_dice s num_sides : ℚ) / ((num_sides : ℚ) ^ num_dice)) *
          (num_trials : ℚ) := by
    intro s hs'
    simp only [calculate_theoretical_counts]
    rw [if_pos (Finset.mem_Icc.mp hs'), count_eq_numTuples, Int.cast_natCast]
  rw [Finset.sum_congr rfl hstep, ← Finset.sum_mul, ← Finset.sum_div, ← Nat.cast_sum,
    sum_numTuples, Nat.cast_pow,
    div_self (pow_ne_zero _ (Nat.cast_ne_zero.mpr (by omega))), one_mul]

/-- Concrete instance of claim C4 at `num_dice = 1`, `num_sides = 2`,
`num_trials = 1`. -/
theorem calculate_theoretical_counts_total_witness :
    1 ≤ 1 ∧ (1 : Nat) ≤ 10 ∧ 2 ≤ 2 ∧ (2 : Nat) ≤ 100 ∧ 1 ≤ (1 : Int) ∧
    ∑ s ∈ Finset.Icc ((1 : Nat) : Int) (((1 : Nat) : Int) * ((2 : Nat) : Int)),
      calculate_theoretical_counts 1 2 1 s = ((1 : Int) : ℚ) :=
  ⟨by decide, by decide, by decide, by decide, by decide,
    calculate_theoretical_counts_total 1 2 1 (by decide) (by decide) (by decide)
      (by decide) (by decide)⟩

/-- Claim C5: for every valid config and every stream of random draws, the
simulation started from the all-zero array leaves the total of the observed
counts over `[num_dice, num_dice * num_sides]` exactly `num_trials`. -/
theorem run_simulation_total (num_dice num_sides num_trials : Nat) (rng : Nat → Nat)
    (_hd1 : 1 ≤ num_dice) (_hd2 : num_dice ≤ 10) (hs1 : 2 ≤ num_sides)
    (hs2 : num_sides ≤ 100) (_ht : 1 ≤ num_trials) :
    ∑ s ∈ Finset.Icc (num_dice : Int) ((num_dice : Int) * (num_sides : Int)),
      run_simulation num_dice num_sides num_trials rng (fun _ => 0) s =
        (num_trials : Int) := by
  rw [run_simulation, run_simulation_from_sum num_dice num_sides rng _
    (fun base => roll_trial_mem_Icc num_dice num_sides (by omega) rng base)]
  simp

/-- Concrete instance of claim C5 at `num_dice = 1`, `num_sides = 2`,
`num_trials = 2`, with the constant-zero draw stream. -/
theorem run_simulation_total_witness :
    1 ≤ 1 ∧ (1 : Nat) ≤ 10 ∧ 2 ≤ 2 ∧ (2 : Nat) ≤ 100 ∧ 1 ≤ 2 ∧
    ∑ s ∈ Finset.Icc ((1 : Nat) : Int) (((1 : Nat) : Int) * ((2 : Nat) : Int)),
      run_simulation 1 2 2 (fun _ => 0) (fun _ => 0) s = ((2 : Nat) : Int) :=
  ⟨by decide, by decide, by decide, by decide, by decide,
    run_simulation_total 1 2 2 (fun _ => 0) (by decide) (by decide) (by decide)
      (by decide) (by decide)⟩

/-- Claim C6: reflection symmetry of the sum distribution — for every sum in
the attainable range the count at `target_sum` equals the count at
`dice_count * (num_sides + 1) - target_sum`. -/
theorem count_reflection_symmetry (dice_count : Nat) (target_sum : Int)
    (num_sides : Nat) (_hs : 2 ≤ num_sides)
    (_hrange : (dice_count : Int) ≤ target_sum ∧
      target_sum ≤ (dice_count : Int) * (num_sides : Int)) :
    count_sum_combinations_recursive dice_count target_sum num_sides =
      count_sum_combinations_recursive dice_count
        ((dice_count : Int) * ((num_sides : Int) + 1) - target_sum) num_sides :=
  count_reflection dice_count target_sum num_sides

/-- Concrete instance of claim C6 at `dice_count = 2`, `target_sum = 7`,
`num_sides = 6`. -/
theorem count_reflection_symmetry_witness :
    (2 ≤ 6 ∧ ((2 : Nat) : Int) ≤ 7 ∧
      (7 : Int) ≤ ((2 : Nat) : Int) * ((6 : Nat) : Int)) ∧
    count_sum_combinations_recursive 2 7 6 =
      count_sum_combinations_recursive 2
        (((2 : Nat) : Int) * (((6 : Nat) : Int) + 1) - 7) 6 :=
  ⟨⟨by decide, by decide, by decide⟩,
    count_reflection_symmetry 2 7 6 (by decide) ⟨by decide, by decide⟩⟩

/-- Claim C7: the chi-squared statistic is always non-negative, and it is zero
exactly when the observed count equals the expected count at every sum in
range with positive expected count. -/
theorem chi_squared_nonneg_zero_iff (observed_counts : Int → Int)
    (expected_counts : Int → ℚ) (min_sum max_sum : Int) :
    0 ≤ perform_chi_squared_test observed_counts expected_counts min_sum max_sum ∧
    (perform_chi_squared_test observed_counts expected_counts min_sum max_sum = 0 ↔
      ∀ s ∈ Finset.Icc min_sum max_sum, expected_counts s > 0 →
        (observed_counts s : ℚ) = expected_counts s) := by
  have hterm : ∀ s ∈ Finset.Icc min_sum max_sum,
      0 ≤ (if expected_counts s > 0 then
        ((observed_counts s : ℚ) - expected_counts s) *
          ((observed_counts s : ℚ) - expected_counts s) / expected_counts s
      else 0) := by
    intro s _
    split_ifs with h
    · exact div_nonneg (mul_self_nonneg _) h.le
    · exact le_refl 0
  constructor
  · rw [perform_chi_squared_test]
    exact Finset.sum_nonneg hterm
  · rw [perform_chi_squared_test, Finset.sum_eq_zero_iff_of_nonneg hterm]
    constructor
    · intro hz s hs he
      have hzs := hz s hs
      rw [if_pos he, div_eq_zero_iff] at hzs
      rcases hzs with h0 | h0
      · exact sub_eq_zero.mp (mul_self_eq_zero.mp h0)
      · exact absurd h0 (ne_of_gt he)
    · intro hall s hs
      split_ifs with he
      · rw [hall s hs he]
        simp
      · rfl

/-- Claim C8: the four known values of the combinatorics engine. -/
theorem count_known_values :
    count_sum_combinations_recursive 2 7 6 = 6 ∧
    count_sum_combinations_recursive 1 3 6 = 1 ∧
    count_sum_combinations_recursive 3 3 6 = 1 ∧
    count_sum_combinations_recursive 2 13 6 = 0 :=
  ⟨by decide, by decide, by decide, by decide⟩

/-- Claim C9: the engine's recursion depth is bounded by the initial
`dice_remaining` — with a fuel budget of `dice_remaining + 1` call levels
(the pruned variant refusing any deeper call) the computation already
succeeds, for every input, and returns the engine's value. -/
theorem count_fuel_adequate (dice_remaining : Nat) (target_sum : Int)
    (num_sides : Nat) :
    count_sum_combinations_fuel (dice_remaining + 1) dice_remaining target_sum
        num_sides =
      some (count_sum_combinations_recursive dice_remaining target_sum num_sides) :=
  count_fuel_spec dice_remaining (dice_remaining + 1) (by omega) target_sum num_sides

/-- Claim C10: every trial sum lies in `[num_dice, num_dice * num_sides]`, so
the increment `observed_counts[current_sum]++` stays inside the populated
range and the simulation never touches an entry outside it. -/
theorem run_simulation_index_safety (num_dice num_sides num_trials : Nat)
    (rng : Nat → Nat) (_hd : 1 ≤ num_dice) (hs : 2 ≤ num_sides) :
    (∀ base, (num_dice : Int) ≤ roll_trial num_dice num_sides rng base ∧
      roll_trial num_dice num_sides rng base ≤ (num_dice : Int) * (num_sides : Int)) ∧
    (∀ (observed_counts : Int → Int) (x : Int),
      x ∉ Finset.Icc (num_dice : Int) ((num_dice : Int) * (num_sides : Int)) →
      run_simulation num_dice num_sides num_trials rng observed_counts x =
        observed_counts x) := by
  constructor
  · intro base
    exact Finset.mem_Icc.mp (roll_trial_mem_Icc num_dice num_sides (by omega) rng base)
  · intro observed_counts x hx
    rw [run_simulation]
    exact run_simulation_from_outside num_dice num_sides rng _
      (fun base => roll_trial_mem_Icc num_dice num_sides (by omega) rng base)
      num_trials 0 observed_counts x hx

/-- Concrete instance of claim C10 at `num_dice = 2`, `num_sides = 6`,
`num_trials = 3`, with the constant-zero draw stream. -/
theorem run_simulation_index_safety_witness :
    1 ≤ 2 ∧ 2 ≤ 6 ∧
    ((∀ base, ((2 : Nat) : Int) ≤ roll_trial 2 6 (fun _ => 0) base ∧
      roll_trial 2 6 (fun _ => 0) base ≤ ((2 : Nat) : Int) * ((6 : Nat) : Int)) ∧
    (∀ (observed_counts : Int → Int) (x : Int),
      x ∉ Finset.Icc ((2 : Nat) : Int) (((2 : Nat) : Int) * ((6 : Nat) : Int)) →
      run_simulation 2 6 3 (fun _ => 0) observed_counts x = observed_counts x)) :=
  ⟨by decide, by decide,
    run_simulation_index_safety 2 6 3 (fun _ => 0) (by decide) (by decide)⟩
